import Mathlib

/-!
Verification development for the OpenFermion-Dirac integral-ingestion
pipeline (`openfermion_dirac/_molecular_data_Dirac.py`).

The development shallowly embeds the algorithmically relevant parts of the
repository:

* the FCIDUMP record classifier of `get_integrals_FCIDUMP` (lines 499-531),
* the energy-log scanner `get_energies` (lines 533-548),
* the index-convention transformer and symmetry expander of
  `get_molecular_hamiltonian` (lines 550-632).

Python dictionaries are embedded as association lists with Python assignment
semantics (`upsert` replaces the value of an existing key in place, otherwise
appends).  Dense numpy tensors are embedded as total functions from index
tuples to rationals; machine floats are idealised as rationals, with the
division by two and the truncation tolerance kept as exact parameters.
-/

namespace OFDirac

/-! ## Dictionaries (Python `dict` keyed by integer tuples) -/

abbrev Idx2 := ℕ × ℕ

abbrev Idx4 := ℕ × ℕ × ℕ × ℕ

abbrev Dict1 := List (ℕ × ℚ)

abbrev Dict2 := List (Idx2 × ℚ)

abbrev Dict4 := List (Idx4 × ℚ)

/-- Dictionary lookup: the value stored at key `k`, if present. -/
def lookupD {κ : Type} [DecidableEq κ] : List (κ × ℚ) → κ → Option ℚ
  | [], _ => none
  | (k', v') :: d, k => if k' = k then some v' else lookupD d k

/-- Python dictionary assignment `d[k] = v`: replace the value of an existing
key in place, otherwise append a new entry.  Keys stay unique and keep their
insertion order, as in CPython. -/
def upsert {κ : Type} [DecidableEq κ] : List (κ × ℚ) → κ → ℚ → List (κ × ℚ)
  | [], k, v => [(k, v)]
  | (k', v') :: d, k, v => if k' = k then (k, v) :: d else (k', v') :: upsert d k v

/-! ## The FCIDUMP record classifier (`get_integrals_FCIDUMP`, lines 513-527)

A data record is one line after the `&END` sentinel, already tokenized: a
value and four non-negative integer indices, exactly as the Python code reads
them with `float`/`int`. -/

/-- One FCIDUMP data record `value index1 index2 index3 index4`. -/
structure FRec where
  v : ℚ
  a : ℕ
  b : ℕ
  c : ℕ
  d : ℕ
deriving DecidableEq

/-- The four accumulators of `get_integrals_FCIDUMP`: core energy, orbital
energies (`spinor`), one-body and two-body integral dictionaries. -/
structure ParseState where
  Ecore : ℚ
  spinor : Dict1
  oneBody : Dict2
  twoBody : Dict4
deriving DecidableEq

/-- Classification cascade of lines 518-527: trailing-zero pattern on
`(a,b,c,d)`, checked exactly in the source order. -/
def parseStep (st : ParseState) (r : FRec) : ParseState :=
  if r.d = 0 ∧ r.c = 0 then
    if r.b = 0 then
      if r.a = 0 then { st with Ecore := r.v }
      else { st with spinor := upsert st.spinor r.a r.v }
    else { st with oneBody := upsert st.oneBody (r.a, r.b) r.v }
  else { st with twoBody := upsert st.twoBody (r.a, r.b, r.c, r.d) r.v }

/-- Initial accumulators of lines 501-504 (`E_core = 0`, empty dicts). -/
def initParse : ParseState := ⟨0, [], [], []⟩

/-- The record loop of `get_integrals_FCIDUMP` over the data records that
follow the `&END` sentinel. -/
def parseFCIDUMP (recs : List FRec) : ParseState := recs.foldl parseStep initParse

/-! Specification-side accumulators, written from the claimed classification
rule: the value of the last record matching each trailing-zero pattern. -/

/-- Modelled from the spec: the core energy is the value of the last record
with all four indices zero (default `0`). -/
def lastCore (recs : List FRec) : ℚ :=
  recs.foldl (fun acc r => if r.d = 0 ∧ r.c = 0 ∧ r.b = 0 ∧ r.a = 0 then r.v else acc) 0

/-- Modelled from the spec: the orbital energy for index `a` is the value of
the last record `(v, a, 0, 0, 0)`. -/
def lastOrb (recs : List FRec) (a : ℕ) : Option ℚ :=
  recs.foldl (fun acc r => if r.d = 0 ∧ r.c = 0 ∧ r.b = 0 ∧ r.a = a then some r.v else acc) none

/-- Modelled from the spec: the one-body integral at key `(a,b)` is the value
of the last record `(v, a, b, 0, 0)`. -/
def lastOne (recs : List FRec) (a b : ℕ) : Option ℚ :=
  recs.foldl (fun acc r => if r.d = 0 ∧ r.c = 0 ∧ r.b = b ∧ r.a = a then some r.v else acc) none

/-- Modelled from the spec: the two-body integral at key `(a,b,c,d)` is the
value of the last record `(v, a, b, c, d)`. -/
def lastTwo (recs : List FRec) (a b c d : ℕ) : Option ℚ :=
  recs.foldl (fun acc r => if r.a = a ∧ r.b = b ∧ r.c = c ∧ r.d = d then some r.v else acc) none

/-! ## Dense coefficient tensors (`numpy.zeros`, lines 579-581)

A dense tensor is embedded as a total function on index tuples; cells outside
the allocated `(n_qubits, ...)` shape are never written and stay `0`. -/

abbrev Tensor2 := Idx2 → ℚ

abbrev Tensor4 := Idx4 → ℚ

/-- Single-cell assignment `t[k] = v` on a rank-2 tensor. -/
def upd2 (t : Tensor2) (k : Idx2) (v : ℚ) : Tensor2 := fun x => if x = k then v else t x

/-- Single-cell assignment `t[k] = v` on a rank-4 tensor. -/
def upd4 (t : Tensor4) (k : Idx4) (v : ℚ) : Tensor4 := fun x => if x = k then v else t x

/-- Iteration order of the nested loops `for p in range(n): for q in range(n)`. -/
def range2 (n : ℕ) : List Idx2 :=
  (List.range n).flatMap (fun p => (List.range n).map (fun q => (p, q)))

/-- Iteration order of the four nested loops over `range(n)`. -/
def range4 (n : ℕ) : List Idx4 :=
  (List.range n).flatMap (fun p =>
    (List.range n).flatMap (fun q =>
      (List.range n).flatMap (fun r =>
        (List.range n).map (fun s => (p, q, r, s)))))

/-! ## Relativistic index-convention transformer (lines 583-591)

In the Python source the one-body and two-body loops share the outer `p,q`
loops; since they write to different tensors the nest factors into two
independent loop nests over the same ranges, embedded as two folds. -/

/-- Body of the relativistic one-body loop (lines 586-587): if the 1-based
key `(p+1, q+1)` is stored, write its value to cell `(p, q)`. -/
def oneBodyStepRel (ob : Dict2) (t : Tensor2) (x : Idx2) : Tensor2 :=
  match lookupD ob (x.1 + 1, x.2 + 1) with
  | some v => upd2 t x v
  | none => t

/-- The chemist-to-physicist index permutation `(p,q,r,s) -> (p,r,s,q)` on
0-based loop indices, as used on line 591. -/
def cellRel : Idx4 → Idx4
  | (p, q, r, s) => (p, r, s, q)

/-- The 1-based dictionary key probed by the loop iteration `(p,q,r,s)`. -/
def keyRel : Idx4 → Idx4
  | (p, q, r, s) => (p + 1, q + 1, r + 1, s + 1)

/-- Body of the relativistic two-body loop (lines 590-591): if the 1-based
key is stored, write half its value to the permuted cell. -/
def twoBodyStepRel (tb : Dict4) (t : Tensor4) (x : Idx4) : Tensor4 :=
  match lookupD tb (keyRel x) with
  | some v => upd4 t (cellRel x) (v / 2)
  | none => t

/-- Relativistic `one_body_coefficients` before truncation. -/
def relOneBody (ob : Dict2) (n : ℕ) : Tensor2 :=
  (range2 n).foldl (oneBodyStepRel ob) (fun _ => 0)

/-- Relativistic `two_body_coefficients` before truncation. -/
def relTwoBody (tb : Dict4) (n : ℕ) : Tensor4 :=
  (range4 n).foldl (twoBodyStepRel tb) (fun _ => 0)

/-- The unique loop iteration writing to cell `(a,b,c,d)` is `(a,d,b,c)`. -/
def preRel : Idx4 → Idx4
  | (a, b, c, d) => (a, d, b, c)

/-! ## Restricted (non-relativistic) symmetry expander (lines 592-620) -/

/-- Body of the restricted one-body loop (lines 595-597): mirror the stored
value into `(p,q)` and `(q,p)`, in that order. -/
def oneBodyStepRes (ob : Dict2) (t : Tensor2) (x : Idx2) : Tensor2 :=
  match lookupD ob (x.1 + 1, x.2 + 1) with
  | some v => upd2 (upd2 t (x.1, x.2) v) (x.2, x.1) v
  | none => t

/-- Restricted `one_body_coefficients` before truncation. -/
def resOneBody (ob : Dict2) (n : ℕ) : Tensor2 :=
  (range2 n).foldl (oneBodyStepRes ob) (fun _ => 0)

/-- The eight index tuples generated by the real-integral symmetry group
`{(p,q,r,s), (q,p,r,s), (p,q,s,r), (q,p,s,r), (r,s,p,q), (s,r,p,q),
(r,s,q,p), (s,r,q,p)}`, in the write order of lines 605-612. -/
def symOrbit : Idx4 → List Idx4
  | (p, q, r, s) =>
    [(p, q, r, s), (q, p, r, s), (p, q, s, r), (q, p, s, r),
     (r, s, p, q), (s, r, p, q), (r, s, q, p), (s, r, q, p)]

/-- The tensor cell written for the spatial tuple `(p,q,r,s)`: the chemist
to physicist permutation `(p,q,r,s) -> (p,r,s,q)` at even (spin-up)
positions, as on each left-hand side of lines 605-612. -/
def targetCell : Idx4 → Idx4
  | (p, q, r, s) => (2 * p, 2 * r, 2 * s, 2 * q)

/-- The eight cells written for one stored key, in source order. -/
def cellsRes (x : Idx4) : List Idx4 := (symOrbit x).map targetCell

/-- The 1-based odd (spin-up) dictionary key probed by the spatial loop
iteration `(p,q,r,s)` on line 604. -/
def keyOfSpatial : Idx4 → Idx4
  | (p, q, r, s) => (2 * p + 1, 2 * q + 1, 2 * r + 1, 2 * s + 1)

/-- Body of the restricted two-body symmetry loop (lines 604-612): if the odd
key is stored, write half its value into the eight permuted cells. -/
def writeEight (tb : Dict4) (t : Tensor4) (x : Idx4) : Tensor4 :=
  match lookupD tb (keyOfSpatial x) with
  | some v => (cellsRes x).foldl (fun u c => upd4 u c (v / 2)) t
  | none => t

/-- Restricted `two_body_coefficients` after the symmetry loop but before
spin-doubling. -/
def resTwoBodySym (tb : Dict4) (n : ℕ) : Tensor4 :=
  (range4 (n / 2)).foldl (writeEight tb) (fun _ => 0)

/-- Body of the spin-doubling loop (lines 618-620): copy the even-even cell
into the three remaining spin sectors, in source order. -/
def spinStep (t : Tensor4) (x : Idx4) : Tensor4 :=
  match x with
  | (p, q, r, s) =>
    let t1 := upd4 t (2 * p + 1, 2 * q, 2 * r, 2 * s + 1) (t (2 * p, 2 * q, 2 * r, 2 * s))
    let t2 := upd4 t1 (2 * p, 2 * q + 1, 2 * r + 1, 2 * s) (t1 (2 * p, 2 * q, 2 * r, 2 * s))
    upd4 t2 (2 * p + 1, 2 * q + 1, 2 * r + 1, 2 * s + 1) (t2 (2 * p, 2 * q, 2 * r, 2 * s))

/-- Restricted `two_body_coefficients` before truncation: the symmetry loop
followed by the spin-doubling loop (lines 599-620). -/
def resTwoBody (tb : Dict4) (n : ℕ) : Tensor4 :=
  (range4 (n / 2)).foldl spinStep (resTwoBodySym tb n)

/-! ## Truncation and assembly (lines 622-632) -/

/-- Truncation of line 623-624: zero every entry whose magnitude is below the
tolerance (`EQ_TOLERANCE` in the source; kept as a parameter). -/
def truncate2 (tol : ℚ) (t : Tensor2) : Tensor2 :=
  fun x => if |t x| < tol then 0 else t x

/-- Truncation of line 625-626 for the rank-4 tensor. -/
def truncate4 (tol : ℚ) (t : Tensor4) : Tensor4 :=
  fun x => if |t x| < tol then 0 else t x

/-- The dimension used for both tensors (line 577):
`n_qubits = len(one_body_integrals)`, the number of stored one-body keys. -/
def nQubitsOf (ob : Dict2) : ℕ := ob.length

/-- The full `get_molecular_hamiltonian` pipeline (lines 550-632): pick the
mode, build both dense tensors, truncate, and return the
`InteractionOperator` triple `(E_core, one_body, two_body)`. -/
def getMolecularHamiltonian (relativistic : Bool) (Ecore : ℚ) (ob : Dict2) (tb : Dict4)
    (tol : ℚ) : ℚ × Tensor2 × Tensor4 :=
  let n := nQubitsOf ob
  let one := if relativistic then relOneBody ob n else resOneBody ob n
  let two := if relativistic then relTwoBody tb n else resTwoBody tb n
  (Ecore, truncate2 tol one, truncate4 tol two)

/-! ## Energy-log scanner (`get_energies`, lines 533-548)

Log lines are embedded as character lists.  `re.search` with these three
patterns (they contain no regex metacharacters) is substring occurrence, and
`line.rsplit(None, 1)[-1]` is the last whitespace-delimited token of the
line.  A line containing one of the patterns always has a non-whitespace
character, so the token exists on every line the scanner stores. -/

/-- Whitespace as recognised by Python `str.rsplit(None, ...)`, restricted to
the characters that occur in text logs. -/
def isWS (ch : Char) : Bool := ch = ' ' || ch = '\t' || ch = '\n'

/-- Split a line into whitespace-delimited tokens; `acc` holds the reversed
current token. -/
def tokensAux : List Char → List Char → List (List Char)
  | acc, [] => if acc.isEmpty then [] else [acc.reverse]
  | acc, ch :: cs =>
    if isWS ch then
      if acc.isEmpty then tokensAux [] cs else acc.reverse :: tokensAux [] cs
    else tokensAux (ch :: acc) cs

/-- Python `line.rsplit(None, 1)[-1]`: the last whitespace-delimited token. -/
def lastTokenOf (line : List Char) : Option (List Char) := (tokensAux [] line).getLast?

/-- Whether `pat` occurs at the head of the second argument. -/
def leadsWith : List Char → List Char → Bool
  | [], _ => true
  | _ :: _, [] => false
  | pc :: ps, ch :: cs => pc = ch && leadsWith ps cs

/-- Substring occurrence, the semantics of `re.search` on a literal pattern. -/
def occursIn (pat : List Char) : List Char → Bool
  | [] => leadsWith pat []
  | ch :: cs => leadsWith pat (ch :: cs) || occursIn pat cs

/-- The Hartree-Fock label of line 540, spacing exact. -/
def hfPat : List Char := "Total energy                             :".data

/-- The MP2 label of line 542. -/
def mp2Pat : List Char := "@ Total MP2 energy".data

/-- The CCSD label of line 544. -/
def ccsdPat : List Char := "@ Total CCSD energy".data

/-- The three results of `get_energies`, each `None` until a matching line is
seen (lines 534-536). -/
structure EnergySt where
  hf : Option (List Char)
  mp2 : Option (List Char)
  ccsd : Option (List Char)
deriving DecidableEq

/-- Body of the scanner loop (lines 539-545): each of the three patterns is
tested independently on every line, and a match overwrites the stored
token. -/
def scanStep (st : EnergySt) (line : List Char) : EnergySt :=
  let st1 := if occursIn hfPat line then { st with hf := lastTokenOf line } else st
  let st2 := if occursIn mp2Pat line then { st1 with mp2 := lastTokenOf line } else st1
  if occursIn ccsdPat line then { st2 with ccsd := lastTokenOf line } else st2

/-- The scanner loop over all lines of the log. -/
def scanEnergies (lines : List (List Char)) : EnergySt :=
  lines.foldl scanStep ⟨none, none, none⟩

/-- Modelled from the spec: the last token of the FIRST line matching the
pattern, which is what the specification claims the scanner returns. -/
def firstMatchTok (pat : List Char) : List (List Char) → Option (List Char)
  | [] => none
  | l :: ls => if occursIn pat l then lastTokenOf l else firstMatchTok pat ls

/-! ## File-existence behaviour (lines 499-548)

The filesystem is a partial map from path to already-tokenized contents.
`FileNotFoundError` (a distinct built-in exception type) models the
missing-input condition; Python parse failures (`ValueError` from
`int`/`float`) are a different type. -/

/-- The two Python exception types the readers can surface. -/
inductive PyError where
  | fileNotFound
  | valueError
deriving DecidableEq

/-- `get_integrals_FCIDUMP` (lines 499-531): read `"FCIDUMP_" + name`, else
raise `FileNotFoundError`. -/
def getIntegralsFCIDUMP (fs : String → Option (List FRec)) (name : String) :
    Except PyError ParseState :=
  match fs ("FCIDUMP_" ++ name) with
  | some recs => .ok (parseFCIDUMP recs)
  | none => .error .fileNotFound

/-- `get_energies` (lines 533-548): read `name + ".out"`, else raise
`FileNotFoundError`. -/
def getEnergies (fs : String → Option (List (List Char))) (name : String) :
    Except PyError EnergySt :=
  match fs (name ++ ".out") with
  | some lines => .ok (scanEnergies lines)
  | none => .error .fileNotFound

/-- A concrete FCIDUMP record list exercising every classification case and a
repeated one-body key. -/
def sampleRecs : List FRec :=
  [⟨7, 0, 0, 0, 0⟩, ⟨2, 3, 0, 0, 0⟩, ⟨5, 1, 2, 0, 0⟩, ⟨9, 1, 2, 0, 0⟩, ⟨4, 1, 1, 1, 1⟩]

/-- A log line carrying the Hartree-Fock label with token `-1.0`. -/
def hfLine1 : List Char := "Total energy                             : -1.0".data

/-- A log line carrying the Hartree-Fock label with token `-2.0`. -/
def hfLine2 : List Char := "Total energy                             : -2.0".data

/-! ## Theorems -/

theorem lookupD_upsert {κ : Type} [DecidableEq κ] (d : List (κ × ℚ)) (k : κ) (v : ℚ)
    (k' : κ) : lookupD (upsert d k v) k' = if k' = k then some v else lookupD d k' := by
  induction d with
  | nil =>
    by_cases h : k' = k
    · subst h; simp [upsert, lookupD]
    · rw [if_neg h]
      simp only [upsert, lookupD]
      rw [if_neg (fun hh => h hh.symm)]
  | cons kv d ih =>
    obtain ⟨k₀, v₀⟩ := kv
    by_cases h0 : k₀ = k
    · subst h0
      simp only [upsert, if_pos rfl, lookupD]
      by_cases h : k₀ = k'
      · rw [if_pos h, if_pos h.symm]
      · rw [if_neg h, if_neg (fun hh => h hh.symm), if_neg h]
    · simp only [upsert, if_neg h0, lookupD, ih]
      by_cases h1 : k₀ = k'
      · have hk : ¬ k' = k := fun hh => h0 (h1.trans hh)
        rw [if_pos h1, if_neg hk, if_pos h1]
      · rw [if_neg h1]
        by_cases h2 : k' = k
        · rw [if_pos h2, if_pos h2]
        · rw [if_neg h2, if_neg h2, if_neg h1]

theorem length_upsert {κ : Type} [DecidableEq κ] (d : List (κ × ℚ)) (k : κ) (v : ℚ) :
    (upsert d k v).length = if (lookupD d k).isSome then d.length else d.length + 1 := by
  induction d with
  | nil => simp [upsert, lookupD]
  | cons kv d ih =>
    obtain ⟨k₀, v₀⟩ := kv
    by_cases h0 : k₀ = k <;> simp [upsert, lookupD, h0, ih] <;>
      by_cases h1 : (lookupD d k).isSome <;> simp [h1]

theorem mem_of_lookupD {κ : Type} [DecidableEq κ] (d : List (κ × ℚ)) (k : κ) (v : ℚ)
    (h : lookupD d k = some v) : (k, v) ∈ d := by
  induction d with
  | nil => simp [lookupD] at h
  | cons kv d ih =>
    obtain ⟨k₀, v₀⟩ := kv
    by_cases h0 : k₀ = k
    · subst h0
      simp [lookupD] at h
      simp [h]
    · simp [lookupD, h0] at h
      exact List.mem_cons_of_mem _ (ih h)

theorem parseStep_Ecore (st : ParseState) (r : FRec) :
    (parseStep st r).Ecore = if r.d = 0 ∧ r.c = 0 ∧ r.b = 0 ∧ r.a = 0 then r.v else st.Ecore := by
  by_cases h1 : r.d = 0 ∧ r.c = 0 <;> by_cases h2 : r.b = 0 <;> by_cases h3 : r.a = 0 <;>
    simp [parseStep, h1, h2, h3] <;> tauto

theorem parseStep_spinor (st : ParseState) (r : FRec) :
    (parseStep st r).spinor =
      if r.d = 0 ∧ r.c = 0 ∧ r.b = 0 ∧ ¬ r.a = 0 then upsert st.spinor r.a r.v
      else st.spinor := by
  by_cases h1 : r.d = 0 ∧ r.c = 0 <;> by_cases h2 : r.b = 0 <;> by_cases h3 : r.a = 0 <;>
    simp [parseStep, h1, h2, h3] <;> tauto

theorem parseStep_oneBody (st : ParseState) (r : FRec) :
    (parseStep st r).oneBody =
      if r.d = 0 ∧ r.c = 0 ∧ ¬ r.b = 0 then upsert st.oneBody (r.a, r.b) r.v
      else st.oneBody := by
  by_cases h1 : r.d = 0 ∧ r.c = 0 <;> by_cases h2 : r.b = 0 <;> by_cases h3 : r.a = 0 <;>
    simp [parseStep, h1, h2, h3] <;> tauto

theorem parseStep_twoBody (st : ParseState) (r : FRec) :
    (parseStep st r).twoBody =
      if r.d = 0 ∧ r.c = 0 then st.twoBody
      else upsert st.twoBody (r.a, r.b, r.c, r.d) r.v := by
  by_cases h1 : r.d = 0 ∧ r.c = 0 <;> by_cases h2 : r.b = 0 <;> by_cases h3 : r.a = 0 <;>
    simp [parseStep, h1, h2, h3]

theorem parse_Ecore_fold (recs : List FRec) : ∀ st : ParseState,
    (recs.foldl parseStep st).Ecore =
      recs.foldl (fun acc r => if r.d = 0 ∧ r.c = 0 ∧ r.b = 0 ∧ r.a = 0 then r.v else acc)
        st.Ecore := by
  induction recs with
  | nil => intro st; rfl
  | cons r recs ih =>
    intro st
    simp only [List.foldl_cons, ih, parseStep_Ecore]

theorem parse_spinor_fold (recs : List FRec) (a : ℕ) (ha : a ≠ 0) : ∀ st : ParseState,
    lookupD (recs.foldl parseStep st).spinor a =
      recs.foldl (fun acc r => if r.d = 0 ∧ r.c = 0 ∧ r.b = 0 ∧ r.a = a then some r.v else acc)
        (lookupD st.spinor a) := by
  induction recs with
  | nil => intro st; rfl
  | cons r recs ih =>
    intro st
    simp only [List.foldl_cons, ih]
    congr 1
    rw [parseStep_spinor]
    by_cases h1 : r.d = 0 ∧ r.c = 0 ∧ r.b = 0 ∧ ¬ r.a = 0
    · rw [if_pos h1, lookupD_upsert]
      by_cases h2 : a = r.a
      · simp [h2, h1.1, h1.2.1, h1.2.2.1]
      · rw [if_neg h2, if_neg]
        intro h3
        exact h2 h3.2.2.2.symm
    · rw [if_neg h1, if_neg]
      intro h3
      exact h1 ⟨h3.1, h3.2.1, h3.2.2.1, h3.2.2.2 ▸ ha⟩

theorem parse_oneBody_fold (recs : List FRec) (a b : ℕ) (hb : b ≠ 0) : ∀ st : ParseState,
    lookupD (recs.foldl parseStep st).oneBody (a, b) =
      recs.foldl (fun acc r => if r.d = 0 ∧ r.c = 0 ∧ r.b = b ∧ r.a = a then some r.v else acc)
        (lookupD st.oneBody (a, b)) := by
  induction recs with
  | nil => intro st; rfl
  | cons r recs ih =>
    intro st
    simp only [List.foldl_cons, ih]
    congr 1
    rw [parseStep_oneBody]
    by_cases h1 : r.d = 0 ∧ r.c = 0 ∧ ¬ r.b = 0
    · rw [if_pos h1, lookupD_upsert]
      by_cases h2 : (a, b) = (r.a, r.b)
      · simp only [Prod.mk.injEq] at h2
        simp [h2.1, h2.2, h1.1, h1.2.1]
      · rw [if_neg h2, if_neg]
        intro h3
        exact h2 (by simp [Prod.mk.injEq, h3.2.2.1.symm, h3.2.2.2.symm])
    · rw [if_neg h1, if_neg]
      intro h3
      exact h1 ⟨h3.1, h3.2.1, h3.2.2.1 ▸ hb⟩

theorem parse_twoBody_fold (recs : List FRec) (a b c d : ℕ) (hcd : ¬ (d = 0 ∧ c = 0)) :
    ∀ st : ParseState,
    lookupD (recs.foldl parseStep st).twoBody (a, b, c, d) =
      recs.foldl (fun acc r => if r.a = a ∧ r.b = b ∧ r.c = c ∧ r.d = d then some r.v else acc)
        (lookupD st.twoBody (a, b, c, d)) := by
  induction recs with
  | nil => intro st; rfl
  | cons r recs ih =>
    intro st
    simp only [List.foldl_cons, ih]
    congr 1
    rw [parseStep_twoBody]
    by_cases h1 : r.d = 0 ∧ r.c = 0
    · rw [if_pos h1, if_neg]
      intro h3
      exact hcd ⟨h3.2.2.2 ▸ h1.1, h3.2.2.1 ▸ h1.2⟩
    · rw [if_neg h1, lookupD_upsert]
      by_cases h2 : (a, b, c, d) = (r.a, r.b, r.c, r.d)
      · simp only [Prod.mk.injEq] at h2
        simp [h2.1, h2.2.1, h2.2.2.1, h2.2.2.2]
      · rw [if_neg h2, if_neg]
        intro h3
        exact h2 (by simp [Prod.mk.injEq, h3.1.symm, h3.2.1.symm, h3.2.2.1.symm, h3.2.2.2.symm])

theorem mem_range2 (n : ℕ) (x : Idx2) : x ∈ range2 n ↔ x.1 < n ∧ x.2 < n := by
  obtain ⟨a, b⟩ := x
  simp [range2, List.mem_flatMap, List.mem_map, List.mem_range]

theorem mem_range4 (n : ℕ) (x : Idx4) :
    x ∈ range4 n ↔ x.1 < n ∧ x.2.1 < n ∧ x.2.2.1 < n ∧ x.2.2.2 < n := by
  obtain ⟨a, b, c, d⟩ := x
  simp only [range4, List.mem_flatMap, List.mem_map, List.mem_range, Prod.mk.injEq]
  constructor
  · rintro ⟨p, hp, q, hq, r, hr, s, hs, h1, h2, h3, h4⟩
    subst h1; subst h2; subst h3; subst h4
    exact ⟨hp, hq, hr, hs⟩
  · rintro ⟨ha, hb, hc, hd⟩
    exact ⟨a, ha, b, hb, c, hc, d, hd, rfl, rfl, rfl, rfl⟩

theorem relOneBody_fold (ob : Dict2) : ∀ (L : List Idx2) (t : Tensor2) (x : Idx2),
    (L.foldl (oneBodyStepRel ob) t) x =
      if x ∈ L ∧ (lookupD ob (x.1 + 1, x.2 + 1)).isSome
      then (lookupD ob (x.1 + 1, x.2 + 1)).getD 0 else t x := by
  intro L
  induction L with
  | nil => intro t x; simp
  | cons y L ih =>
    intro t x
    simp only [List.foldl_cons, ih, List.mem_cons]
    by_cases hxy : x = y
    · subst hxy
      by_cases hs : (lookupD ob (x.1 + 1, x.2 + 1)).isSome
      · by_cases hL : x ∈ L
        · rw [if_pos ⟨hL, hs⟩, if_pos ⟨Or.inr hL, hs⟩]
        · rw [if_neg (fun h => hL h.1), if_pos ⟨Or.inl rfl, hs⟩]
          obtain ⟨v, hv⟩ := Option.isSome_iff_exists.mp hs
          simp [oneBodyStepRel, hv, upd2]
      · rw [if_neg (fun h => hs h.2), if_neg (fun h => hs h.2)]
        simp only [oneBodyStepRel]
        cases hv : lookupD ob (x.1 + 1, x.2 + 1) with
        | none => rfl
        | some v => rw [hv] at hs; simp at hs
    · have hstep : oneBodyStepRel ob t y x = t x := by
        simp only [oneBodyStepRel]
        cases lookupD ob (y.1 + 1, y.2 + 1) with
        | none => rfl
        | some v => simp [upd2, hxy]
      by_cases hc : x ∈ L ∧ (lookupD ob (x.1 + 1, x.2 + 1)).isSome
      · rw [if_pos hc, if_pos ⟨Or.inr hc.1, hc.2⟩]
      · rw [if_neg hc, if_neg, hstep]
        intro h
        rcases h.1 with h1 | h1
        · exact hxy h1
        · exact hc ⟨h1, h.2⟩

theorem cellRel_preRel (x : Idx4) : cellRel (preRel x) = x := by
  obtain ⟨a, b, c, d⟩ := x; rfl

theorem cellRel_eq_iff (y x : Idx4) : cellRel y = x ↔ y = preRel x := by
  obtain ⟨a, b, c, d⟩ := x
  obtain ⟨p, q, r, s⟩ := y
  simp only [cellRel, preRel, Prod.mk.injEq]
  tauto

theorem relTwoBody_fold (tb : Dict4) : ∀ (L : List Idx4) (t : Tensor4) (x : Idx4),
    (L.foldl (twoBodyStepRel tb) t) x =
      if preRel x ∈ L ∧ (lookupD tb (keyRel (preRel x))).isSome
      then ((lookupD tb (keyRel (preRel x))).getD 0) / 2 else t x := by
  intro L
  induction L with
  | nil => intro t x; simp
  | cons y L ih =>
    intro t x
    simp only [List.foldl_cons, ih, List.mem_cons]
    by_cases hxy : preRel x = y
    · subst hxy
      by_cases hs : (lookupD tb (keyRel (preRel x))).isSome
      · by_cases hL : preRel x ∈ L
        · rw [if_pos ⟨hL, hs⟩, if_pos ⟨Or.inr hL, hs⟩]
        · rw [if_neg (fun h => hL h.1), if_pos ⟨Or.inl rfl, hs⟩]
          obtain ⟨v, hv⟩ := Option.isSome_iff_exists.mp hs
          simp only [twoBodyStepRel, hv]
          simp [upd4, cellRel_preRel, hv]
      · rw [if_neg (fun h => hs h.2), if_neg (fun h => hs h.2)]
        simp only [twoBodyStepRel]
        cases hv : lookupD tb (keyRel (preRel x)) with
        | none => rfl
        | some v => rw [hv] at hs; simp at hs
    · have hstep : twoBodyStepRel tb t y x = t x := by
        simp only [twoBodyStepRel]
        cases lookupD tb (keyRel y) with
        | none => rfl
        | some v =>
          simp only [upd4]
          rw [if_neg]
          intro hcell
          exact hxy ((cellRel_eq_iff y x).mp hcell.symm).symm
      by_cases hc : preRel x ∈ L ∧ (lookupD tb (keyRel (preRel x))).isSome
      · rw [if_pos hc, if_pos ⟨Or.inr hc.1, hc.2⟩]
      · rw [if_neg hc, if_neg, hstep]
        intro h
        rcases h.1 with h1 | h1
        · exact hxy h1
        · exact hc ⟨h1, h.2⟩

/-! ## Lemmas on the symmetry orbit and the eightfold write -/

theorem symOrbit_self (x : Idx4) : x ∈ symOrbit x := by
  obtain ⟨p, q, r, s⟩ := x
  simp [symOrbit]

theorem symOrbit_trans (x u : Idx4) (hu : u ∈ symOrbit x) (w : Idx4) :
    w ∈ symOrbit u ↔ w ∈ symOrbit x := by
  obtain ⟨p, q, r, s⟩ := x
  simp only [symOrbit, List.mem_cons, List.not_mem_nil, or_false] at hu
  rcases hu with h | h | h | h | h | h | h | h <;> subst h <;>
    simp only [symOrbit, List.mem_cons, List.not_mem_nil, or_false] <;> tauto

theorem targetCell_inj : Function.Injective targetCell := by
  rintro ⟨a, b, c, d⟩ ⟨a', b', c', d'⟩ h
  simp only [targetCell, Prod.mk.injEq] at h ⊢
  omega

theorem mem_cellsRes_iff_orbit (y : Idx4) (u : Idx4) :
    targetCell u ∈ cellsRes y ↔ u ∈ symOrbit y := by
  simp only [cellsRes, List.mem_map]
  constructor
  · rintro ⟨w, hw, hww⟩
    rwa [← targetCell_inj hww]
  · intro h
    exact ⟨u, h, rfl⟩

theorem cellsRes_mem_congr (x y c₁ c₂ : Idx4) (h₁ : c₁ ∈ cellsRes x)
    (h₂ : c₂ ∈ cellsRes x) : c₁ ∈ cellsRes y ↔ c₂ ∈ cellsRes y := by
  simp only [cellsRes, List.mem_map] at h₁ h₂
  obtain ⟨u₁, hu₁, rfl⟩ := h₁
  obtain ⟨u₂, hu₂, rfl⟩ := h₂
  rw [mem_cellsRes_iff_orbit y u₁, mem_cellsRes_iff_orbit y u₂]
  constructor
  · intro h
    exact (symOrbit_trans y u₁ h u₂).mp ((symOrbit_trans x u₁ hu₁ u₂).mpr hu₂)
  · intro h
    exact (symOrbit_trans y u₂ h u₁).mp ((symOrbit_trans x u₂ hu₂ u₁).mpr hu₁)

theorem foldl_upd4_const (w : ℚ) : ∀ (L : List Idx4) (t : Tensor4) (c : Idx4),
    (L.foldl (fun u c' => upd4 u c' w) t) c = if c ∈ L then w else t c := by
  intro L
  induction L with
  | nil => intro t c; simp
  | cons y L ih =>
    intro t c
    simp only [List.foldl_cons, ih, List.mem_cons]
    by_cases hL : c ∈ L
    · rw [if_pos hL, if_pos (Or.inr hL)]
    · rw [if_neg hL]
      by_cases hcy : c = y
      · subst hcy
        rw [if_pos (Or.inl rfl)]
        simp [upd4]
      · rw [if_neg (by simp [hcy, hL])]
        simp [upd4, hcy]

theorem writeEight_char (tb : Dict4) (t : Tensor4) (x : Idx4) (v : ℚ)
    (h : lookupD tb (keyOfSpatial x) = some v) (c : Idx4) :
    writeEight tb t x c = if c ∈ cellsRes x then v / 2 else t c := by
  simp only [writeEight, h]
  exact foldl_upd4_const (v / 2) (cellsRes x) t c

theorem writeEight_none (tb : Dict4) (t : Tensor4) (x : Idx4)
    (h : lookupD tb (keyOfSpatial x) = none) : writeEight tb t x = t := by
  simp only [writeEight, h]

theorem symFold_pairEq (tb : Dict4) : ∀ (L : List Idx4) (t : Tensor4),
    (∀ x c₁ c₂, c₁ ∈ cellsRes x → c₂ ∈ cellsRes x → t c₁ = t c₂) →
    ∀ x c₁ c₂, c₁ ∈ cellsRes x → c₂ ∈ cellsRes x →
      (L.foldl (writeEight tb) t) c₁ = (L.foldl (writeEight tb) t) c₂ := by
  intro L
  induction L with
  | nil => intro t ht; exact ht
  | cons y L ih =>
    intro t ht
    simp only [List.foldl_cons]
    apply ih
    intro x c₁ c₂ h₁ h₂
    cases hv : lookupD tb (keyOfSpatial y) with
    | none =>
      rw [writeEight_none tb t y hv]
      exact ht x c₁ c₂ h₁ h₂
    | some v =>
      rw [writeEight_char tb t y v hv c₁, writeEight_char tb t y v hv c₂]
      by_cases hc : c₁ ∈ cellsRes y
      · rw [if_pos hc, if_pos ((cellsRes_mem_congr x y c₁ c₂ h₁ h₂).mp hc)]
      · rw [if_neg hc, if_neg (fun h => hc ((cellsRes_mem_congr x y c₁ c₂ h₁ h₂).mpr h))]
        exact ht x c₁ c₂ h₁ h₂

theorem resTwoBodySym_pairEq (tb : Dict4) (n : ℕ) (x c₁ c₂ : Idx4)
    (h₁ : c₁ ∈ cellsRes x) (h₂ : c₂ ∈ cellsRes x) :
    resTwoBodySym tb n c₁ = resTwoBodySym tb n c₂ := by
  exact symFold_pairEq tb (range4 (n / 2)) (fun _ => 0) (fun _ _ _ _ _ => rfl) x c₁ c₂ h₁ h₂

/-! ## Lemmas on the spin-doubling loop

The three cells written per iteration all carry an odd coordinate, while the
cell read is all-even, so the even-even block is never modified and every
written cell is written by exactly one iteration. -/

theorem spinStep_even (t : Tensor4) (y : Idx4) (a b c d : ℕ) :
    spinStep t y (2 * a, 2 * b, 2 * c, 2 * d) = t (2 * a, 2 * b, 2 * c, 2 * d) := by
  obtain ⟨p, q, r, s⟩ := y
  have h1 : ¬((2 * a, 2 * b, 2 * c, 2 * d) : Idx4) =
      (2 * p + 1, 2 * q + 1, 2 * r + 1, 2 * s + 1) := by
    simp only [Prod.mk.injEq]; omega
  have h2 : ¬((2 * a, 2 * b, 2 * c, 2 * d) : Idx4) = (2 * p, 2 * q + 1, 2 * r + 1, 2 * s) := by
    simp only [Prod.mk.injEq]; omega
  have h3 : ¬((2 * a, 2 * b, 2 * c, 2 * d) : Idx4) = (2 * p + 1, 2 * q, 2 * r, 2 * s + 1) := by
    simp only [Prod.mk.injEq]; omega
  simp only [spinStep, upd4]
  rw [if_neg h1, if_neg h2, if_neg h3]

theorem spinFold_even : ∀ (L : List Idx4) (t : Tensor4) (a b c d : ℕ),
    (L.foldl spinStep t) (2 * a, 2 * b, 2 * c, 2 * d) = t (2 * a, 2 * b, 2 * c, 2 * d) := by
  intro L
  induction L with
  | nil => intro t a b c d; rfl
  | cons y L ih =>
    intro t a b c d
    simp only [List.foldl_cons, ih, spinStep_even]

theorem spinStep_self (t : Tensor4) (p q r s : ℕ) :
    spinStep t (p, q, r, s) (2 * p + 1, 2 * q, 2 * r, 2 * s + 1) = t (2 * p, 2 * q, 2 * r, 2 * s)
    ∧ spinStep t (p, q, r, s) (2 * p, 2 * q + 1, 2 * r + 1, 2 * s) =
        t (2 * p, 2 * q, 2 * r, 2 * s)
    ∧ spinStep t (p, q, r, s) (2 * p + 1, 2 * q + 1, 2 * r + 1, 2 * s + 1) =
        t (2 * p, 2 * q, 2 * r, 2 * s) := by
  refine ⟨?_, ?_, ?_⟩
  · have h1 : ¬((2 * p + 1, 2 * q, 2 * r, 2 * s + 1) : Idx4) =
        (2 * p + 1, 2 * q + 1, 2 * r + 1, 2 * s + 1) := by simp only [Prod.mk.injEq]; omega
    have h2 : ¬((2 * p + 1, 2 * q, 2 * r, 2 * s + 1) : Idx4) =
        (2 * p, 2 * q + 1, 2 * r + 1, 2 * s) := by simp only [Prod.mk.injEq]; omega
    have h4 : ¬((2 * p, 2 * q, 2 * r, 2 * s) : Idx4) =
        (2 * p + 1, 2 * q, 2 * r, 2 * s + 1) := by simp only [Prod.mk.injEq]; omega
    simp only [spinStep, upd4]
    simp [h1, h2, h4]
  · have h1 : ¬((2 * p, 2 * q + 1, 2 * r + 1, 2 * s) : Idx4) =
        (2 * p + 1, 2 * q + 1, 2 * r + 1, 2 * s + 1) := by simp only [Prod.mk.injEq]; omega
    have h4 : ¬((2 * p, 2 * q, 2 * r, 2 * s) : Idx4) =
        (2 * p + 1, 2 * q, 2 * r, 2 * s + 1) := by simp only [Prod.mk.injEq]; omega
    simp only [spinStep, upd4]
    simp [h1, h4]
  · have h4 : ¬((2 * p, 2 * q, 2 * r, 2 * s) : Idx4) =
        (2 * p, 2 * q + 1, 2 * r + 1, 2 * s) := by simp only [Prod.mk.injEq]; omega
    have h5 : ¬((2 * p, 2 * q, 2 * r, 2 * s) : Idx4) =
        (2 * p + 1, 2 * q, 2 * r, 2 * s + 1) := by simp only [Prod.mk.injEq]; omega
    simp only [spinStep, upd4]
    simp [h4, h5]

theorem spinStep_other (t : Tensor4) (y : Idx4) (p q r s : ℕ) (hxy : y ≠ (p, q, r, s)) :
    spinStep t y (2 * p + 1, 2 * q, 2 * r, 2 * s + 1) = t (2 * p + 1, 2 * q, 2 * r, 2 * s + 1)
    ∧ spinStep t y (2 * p, 2 * q + 1, 2 * r + 1, 2 * s) = t (2 * p, 2 * q + 1, 2 * r + 1, 2 * s)
    ∧ spinStep t y (2 * p + 1, 2 * q + 1, 2 * r + 1, 2 * s + 1) =
        t (2 * p + 1, 2 * q + 1, 2 * r + 1, 2 * s + 1) := by
  obtain ⟨p', q', r', s'⟩ := y
  have hne : ¬(p' = p ∧ q' = q ∧ r' = r ∧ s' = s) := by
    intro h
    exact hxy (by simp [Prod.mk.injEq, h.1, h.2.1, h.2.2.1, h.2.2.2])
  refine ⟨?_, ?_, ?_⟩
  · have h1 : ¬((2 * p + 1, 2 * q, 2 * r, 2 * s + 1) : Idx4) =
        (2 * p' + 1, 2 * q' + 1, 2 * r' + 1, 2 * s' + 1) := by simp only [Prod.mk.injEq]; omega
    have h2 : ¬((2 * p + 1, 2 * q, 2 * r, 2 * s + 1) : Idx4) =
        (2 * p', 2 * q' + 1, 2 * r' + 1, 2 * s') := by simp only [Prod.mk.injEq]; omega
    have h3 : ¬((2 * p + 1, 2 * q, 2 * r, 2 * s + 1) : Idx4) =
        (2 * p' + 1, 2 * q', 2 * r', 2 * s' + 1) := by simp only [Prod.mk.injEq]; omega
    simp only [spinStep, upd4]
    rw [if_neg h1, if_neg h2, if_neg h3]
  · have h1 : ¬((2 * p, 2 * q + 1, 2 * r + 1, 2 * s) : Idx4) =
        (2 * p' + 1, 2 * q' + 1, 2 * r' + 1, 2 * s' + 1) := by simp only [Prod.mk.injEq]; omega
    have h2 : ¬((2 * p, 2 * q + 1, 2 * r + 1, 2 * s) : Idx4) =
        (2 * p', 2 * q' + 1, 2 * r' + 1, 2 * s') := by simp only [Prod.mk.injEq]; omega
    have h3 : ¬((2 * p, 2 * q + 1, 2 * r + 1, 2 * s) : Idx4) =
        (2 * p' + 1, 2 * q', 2 * r', 2 * s' + 1) := by simp only [Prod.mk.injEq]; omega
    simp only [spinStep, upd4]
    rw [if_neg h1, if_neg h2, if_neg h3]
  · have h1 : ¬((2 * p + 1, 2 * q + 1, 2 * r + 1, 2 * s + 1) : Idx4) =
        (2 * p' + 1, 2 * q' + 1, 2 * r' + 1, 2 * s' + 1) := by simp only [Prod.mk.injEq]; omega
    have h2 : ¬((2 * p + 1, 2 * q + 1, 2 * r + 1, 2 * s + 1) : Idx4) =
        (2 * p', 2 * q' + 1, 2 * r' + 1, 2 * s') := by simp only [Prod.mk.injEq]; omega
    have h3 : ¬((2 * p + 1, 2 * q + 1, 2 * r + 1, 2 * s + 1) : Idx4) =
        (2 * p' + 1, 2 * q', 2 * r', 2 * s' + 1) := by simp only [Prod.mk.injEq]; omega
    simp only [spinStep, upd4]
    rw [if_neg h1, if_neg h2, if_neg h3]

theorem spinFold_preserve : ∀ (L : List Idx4) (t : Tensor4) (p q r s : ℕ),
    (p, q, r, s) ∉ L →
    (L.foldl spinStep t) (2 * p + 1, 2 * q, 2 * r, 2 * s + 1) =
        t (2 * p + 1, 2 * q, 2 * r, 2 * s + 1)
    ∧ (L.foldl spinStep t) (2 * p, 2 * q + 1, 2 * r + 1, 2 * s) =
        t (2 * p, 2 * q + 1, 2 * r + 1, 2 * s)
    ∧ (L.foldl spinStep t) (2 * p + 1, 2 * q + 1, 2 * r + 1, 2 * s + 1) =
        t (2 * p + 1, 2 * q + 1, 2 * r + 1, 2 * s + 1) := by
  intro L
  induction L with
  | nil => intro t p q r s _; exact ⟨rfl, rfl, rfl⟩
  | cons y L ih =>
    intro t p q r s h
    have hy : y ≠ (p, q, r, s) := fun hh => h (by simp [hh])
    have hL : (p, q, r, s) ∉ L := fun hh => h (List.mem_cons_of_mem _ hh)
    obtain ⟨iA, iB, iC⟩ := ih (spinStep t y) p q r s hL
    obtain ⟨oA, oB, oC⟩ := spinStep_other t y p q r s hy
    exact ⟨by simp only [List.foldl_cons, iA, oA], by simp only [List.foldl_cons, iB, oB],
      by simp only [List.foldl_cons, iC, oC]⟩

theorem spinFold_writes : ∀ (L : List Idx4) (t : Tensor4) (p q r s : ℕ),
    (p, q, r, s) ∈ L →
    (L.foldl spinStep t) (2 * p + 1, 2 * q, 2 * r, 2 * s + 1) = t (2 * p, 2 * q, 2 * r, 2 * s)
    ∧ (L.foldl spinStep t) (2 * p, 2 * q + 1, 2 * r + 1, 2 * s) =
        t (2 * p, 2 * q, 2 * r, 2 * s)
    ∧ (L.foldl spinStep t) (2 * p + 1, 2 * q + 1, 2 * r + 1, 2 * s + 1) =
        t (2 * p, 2 * q, 2 * r, 2 * s) := by
  intro L
  induction L with
  | nil => intro t p q r s h; simp at h
  | cons y L ih =>
    intro t p q r s h
    by_cases hmem : (p, q, r, s) ∈ L
    · obtain ⟨hA, hB, hC⟩ := ih (spinStep t y) p q r s hmem
      refine ⟨?_, ?_, ?_⟩ <;> simp only [List.foldl_cons, hA, hB, hC, spinStep_even]
    · have hy : y = (p, q, r, s) := by
        rcases List.mem_cons.mp h with h1 | h1
        · exact h1.symm
        · exact absurd h1 hmem
      subst hy
      obtain ⟨pA, pB, pC⟩ := spinFold_preserve L (spinStep t (p, q, r, s)) p q r s hmem
      obtain ⟨sA, sB, sC⟩ := spinStep_self t p q r s
      exact ⟨by simp only [List.foldl_cons, pA, sA], by simp only [List.foldl_cons, pB, sB],
        by simp only [List.foldl_cons, pC, sC]⟩

/-! ## Cells outside the allocated shape are never written -/

theorem relOneBody_oob (ob : Dict2) (n a b : ℕ) (h : n ≤ a ∨ n ≤ b) :
    relOneBody ob n (a, b) = 0 := by
  rw [relOneBody, relOneBody_fold]
  rw [if_neg]
  intro hc
  have := (mem_range2 n (a, b)).mp hc.1
  omega

theorem relTwoBody_oob (tb : Dict4) (n a b c d : ℕ)
    (h : n ≤ a ∨ n ≤ b ∨ n ≤ c ∨ n ≤ d) : relTwoBody tb n (a, b, c, d) = 0 := by
  rw [relTwoBody, relTwoBody_fold]
  rw [if_neg]
  intro hc
  have := (mem_range4 n (preRel (a, b, c, d))).mp hc.1
  simp only [preRel] at this
  omega

theorem oneBodyStepRes_outside (ob : Dict2) (t : Tensor2) (y : Idx2) (a b : ℕ)
    (h1 : ¬((a, b) : Idx2) = (y.1, y.2)) (h2 : ¬((a, b) : Idx2) = (y.2, y.1)) :
    oneBodyStepRes ob t y (a, b) = t (a, b) := by
  simp only [oneBodyStepRes]
  cases lookupD ob (y.1 + 1, y.2 + 1) with
  | none => rfl
  | some v =>
    simp only [upd2]
    rw [if_neg h2, if_neg h1]

theorem resOneBody_fold_oob (ob : Dict2) (n a b : ℕ) (h : n ≤ a ∨ n ≤ b) :
    ∀ (L : List Idx2), (∀ y ∈ L, y.1 < n ∧ y.2 < n) → ∀ t : Tensor2,
      (L.foldl (oneBodyStepRes ob) t) (a, b) = t (a, b) := by
  intro L
  induction L with
  | nil => intro _ t; rfl
  | cons y L ih =>
    intro hb t
    have hy := hb y (List.mem_cons_self y L)
    have hL : ∀ y' ∈ L, y'.1 < n ∧ y'.2 < n := fun y' hy' => hb y' (List.mem_cons_of_mem _ hy')
    simp only [List.foldl_cons, ih hL]
    apply oneBodyStepRes_outside <;> · simp only [Prod.mk.injEq]; omega

theorem resOneBody_oob (ob : Dict2) (n a b : ℕ) (h : n ≤ a ∨ n ≤ b) :
    resOneBody ob n (a, b) = 0 := by
  rw [resOneBody, resOneBody_fold_oob ob n a b h (range2 n)
    (fun y hy => (mem_range2 n y).mp hy)]

theorem cellsRes_notMem_oob (m : ℕ) (y : Idx4) (hy : y ∈ range4 m) (a b c d : ℕ)
    (h : 2 * m ≤ a ∨ 2 * m ≤ b ∨ 2 * m ≤ c ∨ 2 * m ≤ d) : ((a, b, c, d) : Idx4) ∉ cellsRes y := by
  rw [mem_range4] at hy
  obtain ⟨p, q, r, s⟩ := y
  dsimp only at hy
  intro hc
  simp only [cellsRes, symOrbit, targetCell, List.mem_map, List.mem_cons, List.not_mem_nil,
    or_false] at hc
  obtain ⟨u, hu, hcell⟩ := hc
  rcases hu with h' | h' | h' | h' | h' | h' | h' | h' <;> subst h' <;>
    (simp only [targetCell, Prod.mk.injEq] at hcell; omega)

theorem writeEight_outside (tb : Dict4) (t : Tensor4) (m : ℕ) (y : Idx4) (hy : y ∈ range4 m)
    (a b c d : ℕ) (h : 2 * m ≤ a ∨ 2 * m ≤ b ∨ 2 * m ≤ c ∨ 2 * m ≤ d) :
    writeEight tb t y (a, b, c, d) = t (a, b, c, d) := by
  cases hv : lookupD tb (keyOfSpatial y) with
  | none => rw [writeEight_none tb t y hv]
  | some v =>
    rw [writeEight_char tb t y v hv, if_neg (cellsRes_notMem_oob m y hy a b c d h)]

theorem symFold_oob (tb : Dict4) (m : ℕ) (a b c d : ℕ)
    (h : 2 * m ≤ a ∨ 2 * m ≤ b ∨ 2 * m ≤ c ∨ 2 * m ≤ d) :
    ∀ (L : List Idx4), (∀ y ∈ L, y ∈ range4 m) → ∀ t : Tensor4,
      (L.foldl (writeEight tb) t) (a, b, c, d) = t (a, b, c, d) := by
  intro L
  induction L with
  | nil => intro _ t; rfl
  | cons y L ih =>
    intro hb t
    have hy := hb y (List.mem_cons_self y L)
    have hL : ∀ y' ∈ L, y' ∈ range4 m := fun y' hy' => hb y' (List.mem_cons_of_mem _ hy')
    simp only [List.foldl_cons, ih hL]
    exact writeEight_outside tb t m y hy a b c d h

theorem spinStep_oob (t : Tensor4) (m : ℕ) (y : Idx4) (hy : y ∈ range4 m) (a b c d : ℕ)
    (h : 2 * m ≤ a ∨ 2 * m ≤ b ∨ 2 * m ≤ c ∨ 2 * m ≤ d) :
    spinStep t y (a, b, c, d) = t (a, b, c, d) := by
  rw [mem_range4] at hy
  obtain ⟨p, q, r, s⟩ := y
  dsimp only at hy
  have h1 : ¬((a, b, c, d) : Idx4) = (2 * p + 1, 2 * q + 1, 2 * r + 1, 2 * s + 1) := by
    simp only [Prod.mk.injEq]; omega
  have h2 : ¬((a, b, c, d) : Idx4) = (2 * p, 2 * q + 1, 2 * r + 1, 2 * s) := by
    simp only [Prod.mk.injEq]; omega
  have h3 : ¬((a, b, c, d) : Idx4) = (2 * p + 1, 2 * q, 2 * r, 2 * s + 1) := by
    simp only [Prod.mk.injEq]; omega
  simp only [spinStep, upd4]
  rw [if_neg h1, if_neg h2, if_neg h3]

theorem spinFold_oob (m : ℕ) (a b c d : ℕ)
    (h : 2 * m ≤ a ∨ 2 * m ≤ b ∨ 2 * m ≤ c ∨ 2 * m ≤ d) :
    ∀ (L : List Idx4), (∀ y ∈ L, y ∈ range4 m) → ∀ t : Tensor4,
      (L.foldl spinStep t) (a, b, c, d) = t (a, b, c, d) := by
  intro L
  induction L with
  | nil => intro _ t; rfl
  | cons y L ih =>
    intro hb t
    have hy := hb y (List.mem_cons_self y L)
    have hL : ∀ y' ∈ L, y' ∈ range4 m := fun y' hy' => hb y' (List.mem_cons_of_mem _ hy')
    simp only [List.foldl_cons, ih hL]
    exact spinStep_oob t m y hy a b c d h

theorem resTwoBody_oob (tb : Dict4) (n a b c d : ℕ)
    (h : n ≤ a ∨ n ≤ b ∨ n ≤ c ∨ n ≤ d) : resTwoBody tb n (a, b, c, d) = 0 := by
  have h2 : 2 * (n / 2) ≤ a ∨ 2 * (n / 2) ≤ b ∨ 2 * (n / 2) ≤ c ∨ 2 * (n / 2) ≤ d := by omega
  rw [resTwoBody, spinFold_oob (n / 2) a b c d h2 (range4 (n / 2)) (fun y hy => hy),
    resTwoBodySym, symFold_oob tb (n / 2) a b c d h2 (range4 (n / 2)) (fun y hy => hy)]

/-! ## The restricted one-body loop never touches spin-down rows or columns -/

theorem resOneBody_fold_oddZero (ob : Dict2)
    (hob : ∀ k v, ((k, v) : Idx2 × ℚ) ∈ ob → k.1 % 2 = 1 ∧ k.2 % 2 = 1) :
    ∀ (L : List Idx2) (t : Tensor2),
      (∀ a b, a % 2 = 1 ∨ b % 2 = 1 → t (a, b) = 0) →
      ∀ a b, a % 2 = 1 ∨ b % 2 = 1 → (L.foldl (oneBodyStepRes ob) t) (a, b) = 0 := by
  intro L
  induction L with
  | nil => intro t ht; exact ht
  | cons y L ih =>
    intro t ht
    simp only [List.foldl_cons]
    apply ih
    intro a b hab
    simp only [oneBodyStepRes]
    cases hv : lookupD ob (y.1 + 1, y.2 + 1) with
    | none => exact ht a b hab
    | some v =>
      have hk := hob (y.1 + 1, y.2 + 1) v (mem_of_lookupD ob _ v hv)
      simp only at hk
      simp only [upd2]
      rw [if_neg (by simp only [Prod.mk.injEq]; omega),
        if_neg (by simp only [Prod.mk.injEq]; omega)]
      exact ht a b hab

/-! ## Truncation lemmas -/

theorem truncate2_below (tol : ℚ) (t : Tensor2) (x : Idx2) (h : |t x| < tol) :
    truncate2 tol t x = 0 := if_pos h

theorem truncate4_below (tol : ℚ) (t : Tensor4) (x : Idx4) (h : |t x| < tol) :
    truncate4 tol t x = 0 := if_pos h

theorem truncate2_idem (tol : ℚ) (t : Tensor2) :
    truncate2 tol (truncate2 tol t) = truncate2 tol t := by
  funext x
  by_cases h : |t x| < tol <;> simp [truncate2, h]

theorem truncate4_idem (tol : ℚ) (t : Tensor4) :
    truncate4 tol (truncate4 tol t) = truncate4 tol t := by
  funext x
  by_cases h : |t x| < tol <;> simp [truncate4, h]

theorem truncate2_mono (t1 t2 : ℚ) (T : Tensor2) (x : Idx2) (h12 : t1 ≤ t2)
    (h : truncate2 t1 T x = 0) : truncate2 t2 T x = 0 := by
  by_cases h1 : |T x| < t1
  · exact if_pos (lt_of_lt_of_le h1 h12)
  · rw [truncate2, if_neg h1] at h
    simp [truncate2, h]

theorem truncate4_mono (t1 t2 : ℚ) (T : Tensor4) (x : Idx4) (h12 : t1 ≤ t2)
    (h : truncate4 t1 T x = 0) : truncate4 t2 T x = 0 := by
  by_cases h1 : |T x| < t1
  · exact if_pos (lt_of_lt_of_le h1 h12)
  · rw [truncate4, if_neg h1] at h
    simp [truncate4, h]

theorem getMolecularHamiltonian_one (rel : Bool) (E : ℚ) (ob : Dict2) (tb : Dict4) (tol : ℚ) :
    (getMolecularHamiltonian rel E ob tb tol).2.1 =
      truncate2 tol (if rel then relOneBody ob (nQubitsOf ob) else resOneBody ob (nQubitsOf ob)) :=
  rfl

theorem getMolecularHamiltonian_two (rel : Bool) (E : ℚ) (ob : Dict2) (tb : Dict4) (tol : ℚ) :
    (getMolecularHamiltonian rel E ob tb tol).2.2 =
      truncate4 tol (if rel then relTwoBody tb (nQubitsOf ob) else resTwoBody tb (nQubitsOf ob)) :=
  rfl

theorem scanStep_hf (st : EnergySt) (line : List Char) :
    (scanStep st line).hf = if occursIn hfPat line then lastTokenOf line else st.hf := by
  simp only [scanStep]
  by_cases h1 : occursIn hfPat line = true <;> by_cases h2 : occursIn mp2Pat line = true <;>
    by_cases h3 : occursIn ccsdPat line = true <;> simp [h1, h2, h3]

theorem scanStep_mp2 (st : EnergySt) (line : List Char) :
    (scanStep st line).mp2 = if occursIn mp2Pat line then lastTokenOf line else st.mp2 := by
  simp only [scanStep]
  by_cases h1 : occursIn hfPat line = true <;> by_cases h2 : occursIn mp2Pat line = true <;>
    by_cases h3 : occursIn ccsdPat line = true <;> simp [h1, h2, h3]

theorem scanStep_ccsd (st : EnergySt) (line : List Char) :
    (scanStep st line).ccsd = if occursIn ccsdPat line then lastTokenOf line else st.ccsd := by
  simp only [scanStep]
  by_cases h1 : occursIn hfPat line = true <;> by_cases h2 : occursIn mp2Pat line = true <;>
    by_cases h3 : occursIn ccsdPat line = true <;> simp [h1, h2, h3]

theorem scanFold_preserve (f : EnergySt → Option (List Char)) (pat : List Char)
    (hstep : ∀ st l, f (scanStep st l) = if occursIn pat l then lastTokenOf l else f st) :
    ∀ (L : List (List Char)) (st : EnergySt), L.all (fun l => !occursIn pat l) = true →
      f (L.foldl scanStep st) = f st := by
  intro L
  induction L with
  | nil => intro st _; rfl
  | cons l L ih =>
    intro st h
    simp only [List.all_cons, Bool.and_eq_true, Bool.not_eq_true'] at h
    simp only [List.foldl_cons, ih _ h.2, hstep, h.1]
    simp

/-! ## Closed forms of the relativistic transformer and mode projections -/

theorem relOneBody_eval (ob : Dict2) (n a b : ℕ) :
    relOneBody ob n (a, b) =
      if a < n ∧ b < n then (lookupD ob (a + 1, b + 1)).getD 0 else 0 := by
  rw [relOneBody, relOneBody_fold]
  simp only [mem_range2]
  by_cases hm : a < n ∧ b < n
  · cases hv : lookupD ob (a + 1, b + 1) with
    | none =>
      rw [if_neg (by simp [hv]), if_pos hm]
      simp [hv]
    | some v => rw [if_pos ⟨hm, by simp [hv]⟩, if_pos hm]
  · rw [if_neg (fun h => hm h.1), if_neg hm]

theorem relTwoBody_eval (tb : Dict4) (n a b c d : ℕ) :
    relTwoBody tb n (a, b, c, d) =
      if a < n ∧ d < n ∧ b < n ∧ c < n
      then ((lookupD tb (a + 1, d + 1, b + 1, c + 1)).getD 0) / 2 else 0 := by
  rw [relTwoBody, relTwoBody_fold]
  simp only [preRel, keyRel, mem_range4]
  by_cases hm : a < n ∧ d < n ∧ b < n ∧ c < n
  · cases hv : lookupD tb (a + 1, d + 1, b + 1, c + 1) with
    | none =>
      rw [if_neg (by simp [hv]), if_pos hm]
      simp [hv]
    | some v => rw [if_pos ⟨hm, by simp [hv]⟩, if_pos hm]
  · rw [if_neg (fun h => hm h.1), if_neg hm]

theorem truncate2_zero (tol : ℚ) (t : Tensor2) (x : Idx2) (h : t x = 0) :
    truncate2 tol t x = 0 := by
  simp [truncate2, h]

theorem truncate4_zero (tol : ℚ) (t : Tensor4) (x : Idx4) (h : t x = 0) :
    truncate4 tol t x = 0 := by
  simp [truncate4, h]

theorem gmh_one_rel (E : ℚ) (ob : Dict2) (tb : Dict4) (tol : ℚ) :
    (getMolecularHamiltonian true E ob tb tol).2.1 =
      truncate2 tol (relOneBody ob (nQubitsOf ob)) := rfl

theorem gmh_two_rel (E : ℚ) (ob : Dict2) (tb : Dict4) (tol : ℚ) :
    (getMolecularHamiltonian true E ob tb tol).2.2 =
      truncate4 tol (relTwoBody tb (nQubitsOf ob)) := rfl

theorem gmh_one_res (E : ℚ) (ob : Dict2) (tb : Dict4) (tol : ℚ) :
    (getMolecularHamiltonian false E ob tb tol).2.1 =
      truncate2 tol (resOneBody ob (nQubitsOf ob)) := rfl

theorem gmh_two_res (E : ℚ) (ob : Dict2) (tb : Dict4) (tol : ℚ) :
    (getMolecularHamiltonian false E ob tb tol).2.2 =
      truncate4 tol (resTwoBody tb (nQubitsOf ob)) := rfl

theorem symFold_congr (tb tb' : Dict4) : ∀ (L : List Idx4),
    (∀ y ∈ L, lookupD tb (keyOfSpatial y) = lookupD tb' (keyOfSpatial y)) →
    ∀ t : Tensor4, L.foldl (writeEight tb) t = L.foldl (writeEight tb') t := by
  intro L
  induction L with
  | nil => intro _ t; rfl
  | cons y L ih =>
    intro h t
    have hy := h y (List.mem_cons_self y L)
    have hL : ∀ y' ∈ L, lookupD tb (keyOfSpatial y') = lookupD tb' (keyOfSpatial y') :=
      fun y' hy' => h y' (List.mem_cons_of_mem _ hy')
    simp only [List.foldl_cons, ih hL]
    congr 1
    simp only [writeEight, hy]

/-! ## Claim theorems -/

/-- C1: In relativistic mode, every stored 1-based one-body key `(p,q)` (with
indices in `1..n`) is written verbatim to `OneBodyCoefficients[p-1,q-1]` with
no mirroring; every stored two-body key `(p,q,r,s)` is written, halved, to
`TwoBodyCoefficients[p-1,r-1,s-1,q-1]`; every tensor entry whose cell has no
stored preimage key stays zero before truncation; and since each cell is the
image of exactly one key, each stored key is visited exactly once with no
aggregation across keys. -/
theorem C1_relativistic_index_mapping (ob : Dict2) (tb : Dict4) (n : ℕ) :
    (∀ p q v, lookupD ob (p, q) = some v → 1 ≤ p → p ≤ n → 1 ≤ q → q ≤ n →
      relOneBody ob n (p - 1, q - 1) = v)
    ∧ (∀ p q r s v, lookupD tb (p, q, r, s) = some v →
        1 ≤ p → p ≤ n → 1 ≤ q → q ≤ n → 1 ≤ r → r ≤ n → 1 ≤ s → s ≤ n →
        relTwoBody tb n (p - 1, r - 1, s - 1, q - 1) = v / 2)
    ∧ (∀ a b, lookupD ob (a + 1, b + 1) = none → relOneBody ob n (a, b) = 0)
    ∧ (∀ a b c d, lookupD tb (a + 1, d + 1, b + 1, c + 1) = none →
        relTwoBody tb n (a, b, c, d) = 0) := by
  refine ⟨?_, ?_, ?_, ?_⟩
  · intro p q v hv hp1 hpn hq1 hqn
    rw [relOneBody_eval, if_pos ⟨by omega, by omega⟩,
      show p - 1 + 1 = p from by omega, show q - 1 + 1 = q from by omega, hv]
    rfl
  · intro p q r s v hv hp1 hpn hq1 hqn hr1 hrn hs1 hsn
    rw [relTwoBody_eval, if_pos ⟨by omega, by omega, by omega, by omega⟩,
      show p - 1 + 1 = p from by omega, show q - 1 + 1 = q from by omega,
      show r - 1 + 1 = r from by omega, show s - 1 + 1 = s from by omega, hv]
    rfl
  · intro a b h
    rw [relOneBody_eval]
    by_cases hm : a < n ∧ b < n
    · simp [hm, h]
    · simp [hm]
  · intro a b c d h
    rw [relTwoBody_eval]
    by_cases hm : a < n ∧ d < n ∧ b < n ∧ c < n
    · simp [hm, h]
    · simp [hm]

/-- Witness for C1 at a concrete relativistic input. -/
theorem C1_relativistic_index_mapping_witness :
    relOneBody [((1, 2), (3 : ℚ))] 2 (0, 1) = 3
    ∧ relTwoBody [((1, 2, 1, 2), (4 : ℚ))] 2 (0, 0, 1, 1) = 4 / 2
    ∧ relOneBody [((1, 2), (3 : ℚ))] 2 (0, 0) = 0
    ∧ relTwoBody [((1, 2, 1, 2), (4 : ℚ))] 2 (0, 0, 0, 0) = 0 := by
  obtain ⟨h1, h2, h3, h4⟩ :=
    C1_relativistic_index_mapping [((1, 2), (3 : ℚ))] [((1, 2, 1, 2), (4 : ℚ))] 2
  exact ⟨h1 1 2 3 (by decide) (by decide) (by decide) (by decide) (by decide),
    h2 1 2 1 2 4 (by decide) (by decide) (by decide) (by decide) (by decide) (by decide)
      (by decide) (by decide) (by decide),
    h3 0 0 (by decide), h4 0 0 0 0 (by decide)⟩

/-- C2: In restricted mode, a stored odd key `(2p+1,2q+1,2r+1,2s+1)` with
spatial indices below `n/2` is a loop iteration of the expander; that
iteration writes the stored value divided by 2 into exactly the eight cells
obtained by applying `(p,q,r,s) -> (p,r,s,q)` to the eightfold symmetry group
of the key, doubled to even spin-up positions, leaving every other cell
untouched; and the subsequent spin-doubling pass makes, for all spatial
indices, the three remaining spin sectors equal to the even-even block. -/
theorem C2_restricted_symmetry_expansion (tb : Dict4) (n p q r s : ℕ) (v : ℚ)
    (hv : lookupD tb (2 * p + 1, 2 * q + 1, 2 * r + 1, 2 * s + 1) = some v)
    (hp : p < n / 2) (hq : q < n / 2) (hr : r < n / 2) (hs : s < n / 2) :
    ((p, q, r, s) ∈ range4 (n / 2))
    ∧ (∀ t c, writeEight tb t (p, q, r, s) c =
        if c ∈ cellsRes (p, q, r, s) then v / 2 else t c)
    ∧ (∀ p' q' r' s', p' < n / 2 → q' < n / 2 → r' < n / 2 → s' < n / 2 →
        resTwoBody tb n (2 * p' + 1, 2 * q', 2 * r', 2 * s' + 1) =
          resTwoBody tb n (2 * p', 2 * q', 2 * r', 2 * s')
        ∧ resTwoBody tb n (2 * p', 2 * q' + 1, 2 * r' + 1, 2 * s') =
          resTwoBody tb n (2 * p', 2 * q', 2 * r', 2 * s')
        ∧ resTwoBody tb n (2 * p' + 1, 2 * q' + 1, 2 * r' + 1, 2 * s' + 1) =
          resTwoBody tb n (2 * p', 2 * q', 2 * r', 2 * s')) := by
  refine ⟨(mem_range4 _ _).mpr ⟨hp, hq, hr, hs⟩, ?_, ?_⟩
  · intro t c
    exact writeEight_char tb t (p, q, r, s) v hv c
  · intro p' q' r' s' hp' hq' hr' hs'
    have hmem : ((p', q', r', s') : Idx4) ∈ range4 (n / 2) :=
      (mem_range4 _ _).mpr ⟨hp', hq', hr', hs'⟩
    obtain ⟨hA, hB, hC⟩ := spinFold_writes (range4 (n / 2)) (resTwoBodySym tb n) p' q' r' s' hmem
    have hE := spinFold_even (range4 (n / 2)) (resTwoBodySym tb n) p' q' r' s'
    exact ⟨by rw [resTwoBody, hA, hE], by rw [resTwoBody, hB, hE], by rw [resTwoBody, hC, hE]⟩

/-- Witness for C2 at a concrete restricted input. -/
theorem C2_restricted_symmetry_expansion_witness :
    (((0, 0, 0, 0) : Idx4) ∈ range4 (2 / 2))
    ∧ (∀ t c, writeEight [((1, 1, 1, 1), (4 : ℚ))] t (0, 0, 0, 0) c =
        if c ∈ cellsRes (0, 0, 0, 0) then 4 / 2 else t c)
    ∧ (∀ p' q' r' s', p' < 2 / 2 → q' < 2 / 2 → r' < 2 / 2 → s' < 2 / 2 →
        resTwoBody [((1, 1, 1, 1), (4 : ℚ))] 2 (2 * p' + 1, 2 * q', 2 * r', 2 * s' + 1) =
          resTwoBody [((1, 1, 1, 1), (4 : ℚ))] 2 (2 * p', 2 * q', 2 * r', 2 * s')
        ∧ resTwoBody [((1, 1, 1, 1), (4 : ℚ))] 2 (2 * p', 2 * q' + 1, 2 * r' + 1, 2 * s') =
          resTwoBody [((1, 1, 1, 1), (4 : ℚ))] 2 (2 * p', 2 * q', 2 * r', 2 * s')
        ∧ resTwoBody [((1, 1, 1, 1), (4 : ℚ))] 2
            (2 * p' + 1, 2 * q' + 1, 2 * r' + 1, 2 * s' + 1) =
          resTwoBody [((1, 1, 1, 1), (4 : ℚ))] 2 (2 * p', 2 * q', 2 * r', 2 * s')) :=
  C2_restricted_symmetry_expansion [((1, 1, 1, 1), (4 : ℚ))] 2 0 0 0 0 4 (by decide)
    (by decide) (by decide) (by decide) (by decide)

/-- C3: After the restricted-mode expansion completes, for any input map and
any spatial tuple, the eight permuted tensor cells written in the symmetry
step are pairwise equal, and for all in-range spatial indices the four
spin-sector cells set by spin-doubling are pairwise equal (stated as the
three sector cells each equalling the even-even cell). -/
theorem C3_expansion_invariants (tb : Dict4) (n : ℕ) (x c₁ c₂ : Idx4) :
    (c₁ ∈ cellsRes x → c₂ ∈ cellsRes x → resTwoBody tb n c₁ = resTwoBody tb n c₂)
    ∧ (∀ p q r s, p < n / 2 → q < n / 2 → r < n / 2 → s < n / 2 →
        resTwoBody tb n (2 * p + 1, 2 * q, 2 * r, 2 * s + 1) =
          resTwoBody tb n (2 * p, 2 * q, 2 * r, 2 * s)
        ∧ resTwoBody tb n (2 * p, 2 * q + 1, 2 * r + 1, 2 * s) =
          resTwoBody tb n (2 * p, 2 * q, 2 * r, 2 * s)
        ∧ resTwoBody tb n (2 * p + 1, 2 * q + 1, 2 * r + 1, 2 * s + 1) =
          resTwoBody tb n (2 * p, 2 * q, 2 * r, 2 * s)) := by
  constructor
  · intro h₁ h₂
    have hpair := resTwoBodySym_pairEq tb n x c₁ c₂ h₁ h₂
    simp only [cellsRes, List.mem_map] at h₁ h₂
    obtain ⟨u₁, hu₁, hc₁⟩ := h₁
    obtain ⟨u₂, hu₂, hc₂⟩ := h₂
    obtain ⟨a₁, b₁, e₁, d₁⟩ := u₁
    obtain ⟨a₂, b₂, e₂, d₂⟩ := u₂
    subst hc₁
    subst hc₂
    simp only [targetCell] at hpair ⊢
    rw [resTwoBody, spinFold_even, spinFold_even]
    exact hpair
  · intro p q r s hp hq hr hs
    have hmem : ((p, q, r, s) : Idx4) ∈ range4 (n / 2) := (mem_range4 _ _).mpr ⟨hp, hq, hr, hs⟩
    obtain ⟨hA, hB, hC⟩ := spinFold_writes (range4 (n / 2)) (resTwoBodySym tb n) p q r s hmem
    have hE := spinFold_even (range4 (n / 2)) (resTwoBodySym tb n) p q r s
    exact ⟨by rw [resTwoBody, hA, hE], by rw [resTwoBody, hB, hE], by rw [resTwoBody, hC, hE]⟩

/-- Witness for C3: two distinct cells of one symmetry orbit agree, and a
spin-sector cell equals its even-even partner, at a concrete input. -/
theorem C3_expansion_invariants_witness :
    resTwoBody [((1, 3, 1, 3), (4 : ℚ))] 4 (0, 0, 2, 2) =
      resTwoBody [((1, 3, 1, 3), (4 : ℚ))] 4 (2, 0, 2, 0)
    ∧ resTwoBody [((1, 3, 1, 3), (4 : ℚ))] 4 (1, 0, 0, 1) =
      resTwoBody [((1, 3, 1, 3), (4 : ℚ))] 4 (0, 0, 0, 0) := by
  obtain ⟨h1, h2⟩ :=
    C3_expansion_invariants [((1, 3, 1, 3), (4 : ℚ))] 4 (0, 1, 0, 1) (0, 0, 2, 2) (2, 0, 2, 0)
  exact ⟨h1 (by decide) (by decide),
    (h2 0 0 0 0 (by decide) (by decide) (by decide) (by decide)).1⟩

/-- C4: The dump parser classifies every record by its trailing-zero pattern
in the source order (all four zero: core energy; `d,c,b` zero and `a`
nonzero: orbital energy of `a`; `d,c` zero and `b` nonzero: one-body keyed
`(a,b)`; otherwise two-body keyed `(a,b,c,d)`), keeps indices 1-based as
read, and a repeated key silently takes the last value seen. -/
theorem C4_record_classification (recs : List FRec) (a b c d : ℕ) :
    (parseFCIDUMP recs).Ecore = lastCore recs
    ∧ (a ≠ 0 → lookupD (parseFCIDUMP recs).spinor a = lastOrb recs a)
    ∧ (b ≠ 0 → lookupD (parseFCIDUMP recs).oneBody (a, b) = lastOne recs a b)
    ∧ (¬(d = 0 ∧ c = 0) →
        lookupD (parseFCIDUMP recs).twoBody (a, b, c, d) = lastTwo recs a b c d) := by
  refine ⟨?_, fun ha => ?_, fun hb => ?_, fun hcd => ?_⟩
  · exact parse_Ecore_fold recs initParse
  · exact parse_spinor_fold recs a ha initParse
  · exact parse_oneBody_fold recs a b hb initParse
  · exact parse_twoBody_fold recs a b c d hcd initParse

/-- Witness for C4 on `sampleRecs`: one record of each class, with the later
of the two `(1,2)` one-body records winning. -/
theorem C4_record_classification_witness :
    (parseFCIDUMP sampleRecs).Ecore = 7
    ∧ lookupD (parseFCIDUMP sampleRecs).spinor 3 = some 2
    ∧ lookupD (parseFCIDUMP sampleRecs).oneBody (1, 2) = some 9
    ∧ lookupD (parseFCIDUMP sampleRecs).twoBody (1, 1, 1, 1) = some 4 := by
  refine ⟨?_, ?_, ?_, ?_⟩
  · exact (C4_record_classification sampleRecs 0 0 0 0).1.trans (by decide)
  · exact ((C4_record_classification sampleRecs 3 0 0 0).2.1 (by decide)).trans (by decide)
  · exact ((C4_record_classification sampleRecs 1 2 0 0).2.2.1 (by decide)).trans (by decide)
  · exact ((C4_record_classification sampleRecs 1 1 1 1).2.2.2 (by decide)).trans (by decide)

/-- Counterexample to C5: a structurally valid dump with two orbital-energy
records but a single one-body record yields `n_qubits = len(one_body) = 1`,
not the orbital count 2; the stored key `(2,2)`, which under the claimed
shape `(2,2)` would fill cell `(1,1)`, is silently dropped. -/
theorem C5_dimension_counterexample :
    nQubitsOf (parseFCIDUMP [⟨5, 1, 0, 0, 0⟩, ⟨6, 2, 0, 0, 0⟩, ⟨3, 2, 2, 0, 0⟩]).oneBody = 1
    ∧ (parseFCIDUMP [⟨5, 1, 0, 0, 0⟩, ⟨6, 2, 0, 0, 0⟩, ⟨3, 2, 2, 0, 0⟩]).spinor.length = 2
    ∧ lookupD (parseFCIDUMP [⟨5, 1, 0, 0, 0⟩, ⟨6, 2, 0, 0, 0⟩, ⟨3, 2, 2, 0, 0⟩]).oneBody
        (2, 2) = some 3
    ∧ (getMolecularHamiltonian true 0
        (parseFCIDUMP [⟨5, 1, 0, 0, 0⟩, ⟨6, 2, 0, 0, 0⟩, ⟨3, 2, 2, 0, 0⟩]).oneBody
        (parseFCIDUMP [⟨5, 1, 0, 0, 0⟩, ⟨6, 2, 0, 0, 0⟩, ⟨3, 2, 2, 0, 0⟩]).twoBody 0).2.1
        (1, 1) = 0
    ∧ ¬ (1 = 2) := by
  refine ⟨by decide, by decide, by decide, ?_, by decide⟩
  rw [gmh_one_rel]
  apply truncate2_zero
  rw [relOneBody_eval]
  decide

/-- C5 amended: both tensors are indexed by `n_qubits = len(OneBodyIntegrals)`
(the number of stored one-body keys), every cell with a coordinate at or
beyond that bound being zero; this equals the orbital count only when the
one-body map stores exactly one key per orbital. -/
theorem C5_dimension_amended (rel : Bool) (E : ℚ) (ob : Dict2) (tb : Dict4) (tol : ℚ)
    (a b c d : ℕ) :
    (nQubitsOf ob ≤ a ∨ nQubitsOf ob ≤ b →
      (getMolecularHamiltonian rel E ob tb tol).2.1 (a, b) = 0)
    ∧ (nQubitsOf ob ≤ a ∨ nQubitsOf ob ≤ b ∨ nQubitsOf ob ≤ c ∨ nQubitsOf ob ≤ d →
      (getMolecularHamiltonian rel E ob tb tol).2.2 (a, b, c, d) = 0) := by
  constructor
  · intro h
    cases rel
    · rw [gmh_one_res]
      exact truncate2_zero tol _ _ (resOneBody_oob ob (nQubitsOf ob) a b h)
    · rw [gmh_one_rel]
      exact truncate2_zero tol _ _ (relOneBody_oob ob (nQubitsOf ob) a b h)
  · intro h
    cases rel
    · rw [gmh_two_res]
      exact truncate4_zero tol _ _ (resTwoBody_oob tb (nQubitsOf ob) a b c d h)
    · rw [gmh_two_rel]
      exact truncate4_zero tol _ _ (relTwoBody_oob tb (nQubitsOf ob) a b c d h)

/-- Witness for the amended C5 at a concrete input with one stored key. -/
theorem C5_dimension_amended_witness :
    (getMolecularHamiltonian true 0 [((1, 1), (3 : ℚ))] [] 0).2.1 (1, 0) = 0
    ∧ (getMolecularHamiltonian true 0 [((1, 1), (3 : ℚ))] [] 0).2.2 (1, 0, 0, 0) = 0 := by
  obtain ⟨h1, h2⟩ := C5_dimension_amended true 0 [((1, 1), (3 : ℚ))] [] 0 1 0 0 0
  exact ⟨h1 (by decide), h2 (by decide)⟩

/-- Counterexample to C6: with an odd spin-orbital count `n = 3` in
restricted mode the pipeline does not fail: it returns a complete Hamiltonian
triple, and the stored two-body key `(3,3,3,3)` is silently dropped because
the spatial loops are truncated to `range(3 // 2) = range(1)`. -/
theorem C6_odd_count_counterexample :
    nQubitsOf [((1, 1), (1 : ℚ)), ((2, 2), 1), ((3, 3), 1)] = 3
    ∧ lookupD [((3, 3, 3, 3), (4 : ℚ))] (3, 3, 3, 3) = some 4
    ∧ (getMolecularHamiltonian false 0 [((1, 1), (1 : ℚ)), ((2, 2), 1), ((3, 3), 1)]
        [((3, 3, 3, 3), (4 : ℚ))] 0).1 = 0
    ∧ (getMolecularHamiltonian false 0 [((1, 1), (1 : ℚ)), ((2, 2), 1), ((3, 3), 1)]
        [((3, 3, 3, 3), (4 : ℚ))] 0).2.2 (2, 2, 2, 2) = 0
    ∧ (getMolecularHamiltonian false 0 [((1, 1), (1 : ℚ)), ((2, 2), 1), ((3, 3), 1)]
        [((3, 3, 3, 3), (4 : ℚ))] 0).2.2 (0, 0, 0, 0) = 0 := by
  refine ⟨by decide, by decide, by decide, by decide, by decide⟩

/-- C6 amended: in restricted mode an odd spin-orbital count `n` is not
rejected; the pipeline always returns a Hamiltonian, the spatial loops are
silently truncated to `n / 2` (floor), and the two-body expansion depends
only on the stored keys probed inside that truncated range. -/
theorem C6_odd_count_amended (tb tb' : Dict4) (n : ℕ)
    (h : ∀ y ∈ range4 (n / 2), lookupD tb (keyOfSpatial y) = lookupD tb' (keyOfSpatial y)) :
    ∀ x, resTwoBody tb n x = resTwoBody tb' n x := by
  intro x
  rw [resTwoBody, resTwoBody, resTwoBodySym, resTwoBodySym,
    symFold_congr tb tb' (range4 (n / 2)) h]

/-- Witness for the amended C6: with `n = 3` the stored key `(3,3,3,3)` lies
outside the truncated spatial range, so the expansion equals the one from an
empty map. -/
theorem C6_odd_count_amended_witness :
    resTwoBody [((3, 3, 3, 3), (4 : ℚ))] 3 (2, 2, 2, 2) =
      resTwoBody ([] : Dict4) 3 (2, 2, 2, 2) :=
  C6_odd_count_amended [((3, 3, 3, 3), (4 : ℚ))] [] 3 (by decide) (2, 2, 2, 2)

/-- Counterexample to C7: with two lines matching the Hartree-Fock label, the
scanner returns the token of the LAST matching line, not the first line as
claimed. -/
theorem C7_first_line_counterexample :
    (scanEnergies [hfLine1, hfLine2]).hf = lastTokenOf hfLine2
    ∧ firstMatchTok hfPat [hfLine1, hfLine2] = lastTokenOf hfLine1
    ∧ lastTokenOf hfLine1 ≠ lastTokenOf hfLine2
    ∧ (scanEnergies [hfLine1, hfLine2]).hf ≠ firstMatchTok hfPat [hfLine1, hfLine2] := by
  refine ⟨by decide, by decide, by decide, by decide⟩

/-- C7 amended: for each of the three label patterns the scanner returns the
last whitespace-delimited token of the LAST line matching the pattern (each
matching line overwrites the previous value), and for a label that never
appears the result is absent (`none`), not an error. -/
theorem C7_energy_scanner_amended :
    (∀ (pre post : List (List Char)) (l : List Char),
      occursIn hfPat l = true → post.all (fun l' => !occursIn hfPat l') = true →
      (scanEnergies (pre ++ l :: post)).hf = lastTokenOf l)
    ∧ (∀ (pre post : List (List Char)) (l : List Char),
      occursIn mp2Pat l = true → post.all (fun l' => !occursIn mp2Pat l') = true →
      (scanEnergies (pre ++ l :: post)).mp2 = lastTokenOf l)
    ∧ (∀ (pre post : List (List Char)) (l : List Char),
      occursIn ccsdPat l = true → post.all (fun l' => !occursIn ccsdPat l') = true →
      (scanEnergies (pre ++ l :: post)).ccsd = lastTokenOf l)
    ∧ (∀ lines : List (List Char), lines.all (fun l' => !occursIn hfPat l') = true →
      (scanEnergies lines).hf = none)
    ∧ (∀ lines : List (List Char), lines.all (fun l' => !occursIn mp2Pat l') = true →
      (scanEnergies lines).mp2 = none)
    ∧ (∀ lines : List (List Char), lines.all (fun l' => !occursIn ccsdPat l') = true →
      (scanEnergies lines).ccsd = none) := by
  refine ⟨fun pre post l hl hpost => ?_, fun pre post l hl hpost => ?_,
    fun pre post l hl hpost => ?_, fun lines h => ?_, fun lines h => ?_, fun lines h => ?_⟩
  · calc (scanEnergies (pre ++ l :: post)).hf
        = (post.foldl scanStep (scanStep (pre.foldl scanStep ⟨none, none, none⟩) l)).hf := by
          rw [scanEnergies, List.foldl_append, List.foldl_cons]
      _ = (scanStep (pre.foldl scanStep ⟨none, none, none⟩) l).hf :=
          scanFold_preserve (fun st => st.hf) hfPat scanStep_hf post _ hpost
      _ = lastTokenOf l := by rw [scanStep_hf, if_pos hl]
  · calc (scanEnergies (pre ++ l :: post)).mp2
        = (post.foldl scanStep (scanStep (pre.foldl scanStep ⟨none, none, none⟩) l)).mp2 := by
          rw [scanEnergies, List.foldl_append, List.foldl_cons]
      _ = (scanStep (pre.foldl scanStep ⟨none, none, none⟩) l).mp2 :=
          scanFold_preserve (fun st => st.mp2) mp2Pat scanStep_mp2 post _ hpost
      _ = lastTokenOf l := by rw [scanStep_mp2, if_pos hl]
  · calc (scanEnergies (pre ++ l :: post)).ccsd
        = (post.foldl scanStep (scanStep (pre.foldl scanStep ⟨none, none, none⟩) l)).ccsd := by
          rw [scanEnergies, List.foldl_append, List.foldl_cons]
      _ = (scanStep (pre.foldl scanStep ⟨none, none, none⟩) l).ccsd :=
          scanFold_preserve (fun st => st.ccsd) ccsdPat scanStep_ccsd post _ hpost
      _ = lastTokenOf l := by rw [scanStep_ccsd, if_pos hl]
  · exact scanFold_preserve (fun st => st.hf) hfPat scanStep_hf lines ⟨none, none, none⟩ h
  · exact scanFold_preserve (fun st => st.mp2) mp2Pat scanStep_mp2 lines ⟨none, none, none⟩ h
  · exact scanFold_preserve (fun st => st.ccsd) ccsdPat scanStep_ccsd lines ⟨none, none, none⟩ h

/-- Witness for the amended C7 at a concrete two-line log. -/
theorem C7_energy_scanner_amended_witness :
    (scanEnergies [hfLine1, hfLine2]).hf = lastTokenOf hfLine2
    ∧ (scanEnergies [hfLine1, hfLine2]).mp2 = none := by
  obtain ⟨h1, _, _, _, h5, _⟩ := C7_energy_scanner_amended
  exact ⟨h1 [hfLine1] [] hfLine2 (by decide) (by decide),
    h5 [hfLine1, hfLine2] (by decide)⟩

/-- C8: each reader fails with `FileNotFoundError` exactly when its file
(`"FCIDUMP_" + name`, resp. `name + ".out"`) is absent, returns normally when
the file exists (so the missing-input condition is never raised then), and
that error is a distinct type from a parse failure (`ValueError`), so the
caller can tell them apart and recover. -/
theorem C8_missing_input_condition (fsR : String → Option (List FRec))
    (fsL : String → Option (List (List Char))) (name : String) :
    (fsR ("FCIDUMP_" ++ name) = none →
      getIntegralsFCIDUMP fsR name = .error .fileNotFound)
    ∧ (∀ recs, fsR ("FCIDUMP_" ++ name) = some recs →
      getIntegralsFCIDUMP fsR name = .ok (parseFCIDUMP recs))
    ∧ (fsL (name ++ ".out") = none → getEnergies fsL name = .error .fileNotFound)
    ∧ (∀ lines, fsL (name ++ ".out") = some lines →
      getEnergies fsL name = .ok (scanEnergies lines))
    ∧ PyError.fileNotFound ≠ PyError.valueError := by
  refine ⟨fun h => ?_, fun recs h => ?_, fun h => ?_, fun lines h => ?_, by decide⟩
  · simp only [getIntegralsFCIDUMP, h]
  · simp only [getIntegralsFCIDUMP, h]
  · simp only [getEnergies, h]
  · simp only [getEnergies, h]

/-- Witness for C8 on a one-file filesystem. -/
theorem C8_missing_input_condition_witness :
    getIntegralsFCIDUMP (fun _ => none) "m" = .error .fileNotFound
    ∧ getEnergies (fun _ => some []) "m" = .ok (scanEnergies []) := by
  obtain ⟨h1, _, _, h4, _⟩ := C8_missing_input_condition (fun _ => none) (fun _ => some []) "m"
  exact ⟨h1 rfl, h4 [] rfl⟩

/-- C9: truncation zeroes every entry whose magnitude is below the tolerance,
independently in both tensors; the pipeline output is a truncation fixed
point, so assembling twice with the same tolerance yields identical tensors;
and truncation is monotone in the tolerance: entries zeroed at `t1 <= t2` are
also zeroed at `t2`. -/
theorem C9_truncation_properties (tol t1 t2 : ℚ) (T2 : Tensor2) (T4 : Tensor4) (rel : Bool)
    (E : ℚ) (ob : Dict2) (tb : Dict4) :
    (∀ x, |T2 x| < tol → truncate2 tol T2 x = 0)
    ∧ (∀ x, |T4 x| < tol → truncate4 tol T4 x = 0)
    ∧ truncate2 tol (getMolecularHamiltonian rel E ob tb tol).2.1 =
        (getMolecularHamiltonian rel E ob tb tol).2.1
    ∧ truncate4 tol (getMolecularHamiltonian rel E ob tb tol).2.2 =
        (getMolecularHamiltonian rel E ob tb tol).2.2
    ∧ (t1 ≤ t2 → ∀ x, truncate2 t1 T2 x = 0 → truncate2 t2 T2 x = 0)
    ∧ (t1 ≤ t2 → ∀ x, truncate4 t1 T4 x = 0 → truncate4 t2 T4 x = 0) := by
  refine ⟨fun x h => truncate2_below tol T2 x h, fun x h => truncate4_below tol T4 x h,
    ?_, ?_, fun h12 x h => truncate2_mono t1 t2 T2 x h12 h,
    fun h12 x h => truncate4_mono t1 t2 T4 x h12 h⟩
  · rw [getMolecularHamiltonian_one, truncate2_idem]
  · rw [getMolecularHamiltonian_two, truncate4_idem]

/-- Witness for C9 at concrete tolerances and tensors. -/
theorem C9_truncation_properties_witness :
    truncate2 1 (fun _ => (0 : ℚ)) (0, 0) = 0
    ∧ truncate2 1 (getMolecularHamiltonian true 0 [] [] 1).2.1 =
        (getMolecularHamiltonian true 0 [] [] 1).2.1
    ∧ truncate4 1 (fun _ => (0 : ℚ)) (0, 0, 0, 0) = 0 := by
  obtain ⟨h1, h2, h3, h4, h5, h6⟩ :=
    C9_truncation_properties 1 0 1 (fun _ => 0) (fun _ => 0) true 0 [] []
  exact ⟨h1 (0, 0) (by decide), h3, h6 (by decide) (0, 0, 0, 0) (by decide)⟩

/-- C10: in restricted mode the one-body expansion only mirrors stored keys
and never spin-doubles: if every stored one-body key is a pair of odd 1-based
(spin-up) indices, then every output entry with an odd 0-based row or column
(a spin-down orbital) is exactly zero. -/
theorem C10_one_body_spin_sectors_zero (E : ℚ) (ob : Dict2) (tb : Dict4) (tol : ℚ)
    (hob : ∀ kv ∈ ob, (kv : Idx2 × ℚ).1.1 % 2 = 1 ∧ kv.1.2 % 2 = 1)
    (a b : ℕ) (hab : a % 2 = 1 ∨ b % 2 = 1) :
    (getMolecularHamiltonian false E ob tb tol).2.1 (a, b) = 0 := by
  rw [gmh_one_res]
  apply truncate2_zero
  rw [resOneBody]
  exact resOneBody_fold_oddZero ob (fun k v h => hob (k, v) h) (range2 (nQubitsOf ob))
    (fun _ => 0) (fun _ _ _ => rfl) a b hab

/-- Witness for C10 at a concrete restricted input with one odd-odd key. -/
theorem C10_one_body_spin_sectors_zero_witness :
    (getMolecularHamiltonian false 0 [((1, 1), (5 : ℚ))] [] 0).2.1 (1, 0) = 0 :=
  C10_one_body_spin_sectors_zero 0 [((1, 1), (5 : ℚ))] [] 0 (by decide) 1 0 (by decide)

end OFDirac

